import Mathlib

/-!
# Verification of the persi-ds persistent collections library

Shallow embedding of the persistent singly-linked list
(`src/shared/list.rs`, `src/sync/list.rs`) and the persistent red-black
tree and ordered map (`src/shared/rb_tree.rs`, `src/shared/rb_node.rs`,
`src/unsync/rb_map.rs`, `src/common/key_value.rs`), together with proofs
and refutations of the specified properties.

A Rust `List<L>` is a handle on an `Option` of a reference-counted node
chain; we embed the chain as the inductive `LList`.  Fallible operations
(`popped_front` on an empty list, `left`/`right` on an empty tree, which
panic / fail an assertion in the source) are embedded as `Option`-valued
functions returning `none` exactly when the source aborts.
-/

universe u v

/-! ## Persistent list (src/shared/list.rs) -/

inductive LList (α : Type u) where
  | nil
  | cons (x : α) (tl : LList α)
deriving DecidableEq

variable {α : Type u} {β : Type v}

/-- Front-to-back element sequence of a list, i.e. the sequence produced by
the `Iter` iterator in src/shared/list.rs. -/
def LList.toList : LList α → List α
  | .nil => []
  | .cons x t => x :: LList.toList t

/-- Embeds `List::front`: reference to the head element, `None` when empty. -/
def LList.front : LList α → Option α
  | .nil => none
  | .cons x _ => some x

/-- Embeds `List::is_empty`. -/
def LList.is_empty : LList α → Bool
  | .nil => true
  | .cons _ _ => false

/-- Embeds `List::popped_front` (src/shared/list.rs lines 132-139): panics on an
empty list (embedded as `none`); otherwise the handle on the existing next
node. -/
def popped_front : LList α → Option (LList α)
  | .nil => none
  | .cons _ t => some t

/-- Embeds `List::cons`: new node holding `x` whose next reference is a clone of
the tail handle. -/
def LList.pushed_front (l : LList α) (x : α) : LList α :=
  .cons x l

/-- The loop body of `fmap` (src/shared/list.rs lines 231-241): iterate the
source list front-to-back, pushing `f x` onto the front of the accumulator. -/
def fmapGo (f : α → β) : List α → LList β → LList β
  | [], acc => acc
  | x :: xs, acc => fmapGo f xs (acc.pushed_front (f x))

/-- Embeds `fmap` from src/shared/list.rs (iterative accumulation onto a fresh
list); src/sync/list.rs lines 215-224 has the same loop. -/
def fmap (f : α → β) (l : LList α) : LList β :=
  fmapGo f l.toList .nil

/-- Embeds `filter` (src/shared/list.rs lines 213-229): recurse to the tail first,
then cons the head back on when the predicate holds. -/
def filter (p : α → Bool) : LList α → LList α
  | .nil => .nil
  | .cons h t =>
    let tail := filter p t
    if p h then .cons h tail else tail

/-- Embeds `foldl` (src/shared/list.rs lines 243-251). -/
def foldl (f : β → α → β) (acc : β) : LList α → β
  | .nil => acc
  | .cons h t => foldl f (f acc h) t

/-- Embeds `foldr` (src/shared/list.rs lines 253-261). -/
def foldr (f : α → β → β) (acc : β) : LList α → β
  | .nil => acc
  | .cons h t => f h (foldr f acc t)

/-- Inner loop of `concat_all` (src/shared/list.rs lines 274-288): push
every element of one inner list onto the accumulator, front-to-back. -/
def pushAllGo : List α → LList α → LList α
  | [], acc => acc
  | x :: xs, acc => pushAllGo xs (acc.pushed_front x)

/-- Outer loop of `concat_all`: fold the inner loop over the list of
lists, front-to-back. -/
def concatAllGo : List (LList α) → LList α → LList α
  | [], acc => acc
  | xs :: rest, acc => concatAllGo rest (pushAllGo xs.toList acc)

/-- Embeds `concat_all` (src/shared/list.rs lines 274-288): iterative
accumulation, `result = result.pushed_front(x)` for every `x` of every
inner list. -/
def concat_all (xss : LList (LList α)) : LList α :=
  concatAllGo xss.toList .nil

/-- Embeds `mreturn` (src/shared/list.rs line 291): the single-element list. -/
def mreturn (x : α) : LList α := .cons x .nil

/-- Embeds `mbind` (src/shared/list.rs lines 295-304): map `k` over the list and
flatten with `concat_all`. -/
def mbind (l : LList α) (k : α → LList β) : LList β :=
  concat_all (fmap k l)

/-- Embeds `EitherOrBoth` from the itertools crate, as consumed by the
`PartialEq` impl of src/shared/list.rs. -/
inductive EOB (α : Type u) (β : Type v) where
  | lft (a : α)
  | rgt (b : β)
  | both (a : α) (b : β)

/-- Embeds `zip_longest` of the two element sequences. -/
def zipLongest : List α → List β → List (EOB α β)
  | [], [] => []
  | [], b :: bs => .rgt b :: zipLongest [] bs
  | a :: as_, [] => .lft a :: zipLongest as_ []
  | a :: as_, b :: bs => .both a b :: zipLongest as_ bs

/-- The `PartialEq` impl of src/shared/list.rs lines 201-211:
`zip_longest` both iterations and require every pair to be `Both` with
equal components. -/
def listEq [BEq α] (a b : LList α) : Bool :=
  (zipLongest a.toList b.toList).all fun x =>
    match x with
    | .both u w => u == w
    | _ => false

/-! ## Red-black tree (src/shared/rb_tree.rs, src/shared/rb_node.rs) -/

inductive Colour where
  | red
  | black
deriving DecidableEq

/-- A red-black node chain: `Option<L>` with `L: RBNode` in the source
(colour, element, two optional children); `nil` embeds `None`. -/
inductive RBNode (α : Type u) where
  | nil
  | node (c : Colour) (l : RBNode α) (x : α) (r : RBNode α)
deriving DecidableEq

/-- Embeds `RBNode::leaf` (src/shared/rb_node.rs line 7): "The colour of a leaf
must be `Colour::Red`." -/
def leafN (x : α) : RBNode α := .node .red .nil x .nil

/-- Modelled from the spec: `balance_node` in src/shared/rb_tree.rs
lines 135-140 is a `todo!()` stub; spec section 4.4 defines its complete
intended behaviour as the four-pattern rebalancing (a Black node with a
Red child that itself has a Red child, in each of the four shapes, is
rotated into a Red node with two Black children; any other colouring is
returned unchanged). -/
def balance_node : Colour → α → RBNode α → RBNode α → RBNode α
  | .black, z, .node .red (.node .red a x b) y c, d =>
    .node .red (.node .black a x b) y (.node .black c z d)
  | .black, z, .node .red a x (.node .red b y c), d =>
    .node .red (.node .black a x b) y (.node .black c z d)
  | .black, x, a, .node .red (.node .red b y c) z d =>
    .node .red (.node .black a x b) y (.node .black c z d)
  | .black, x, a, .node .red b y (.node .red c z d) =>
    .node .red (.node .black a x b) y (.node .black c z d)
  | c, x, l, r => .node c l x r

/-- Modelled from the spec: `paint_link` in src/shared/rb_tree.rs
lines 142-147 is a `todo!()` stub; spec section 4.4 step 3 says the
top-level insert forces the result's root colour, so `paint_link` sets
the root node's colour (and maps `None` to `None`). -/
def paint_link : RBNode α → Colour → RBNode α
  | .nil, _ => .nil
  | .node _ l x r, c => .node c l x r

/-- Embeds `sorted_insert` (src/shared/rb_tree.rs lines 106-133), generic over
the `PartialOrd` comparison: `lt x e` embeds `x < *node.get_element()`
and `lt e x` embeds `x > *node.get_element()`; on equality the existing
node is returned unchanged. -/
def sorted_insert (lt : α → α → Bool) : RBNode α → α → RBNode α
  | .nil, x => leafN x
  | .node c l e r, x =>
    if lt x e then balance_node c e (sorted_insert lt l x) r
    else if lt e x then balance_node c e l (sorted_insert lt r x)
    else .node c l e r

/-- Embeds `node_inserted` (src/shared/rb_tree.rs lines 97-104): insert, then
paint the root Black. -/
def node_inserted (lt : α → α → Bool) (t : RBNode α) (x : α) : RBNode α :=
  paint_link (sorted_insert lt t x) .black

/-- The `RBTree` handle (root: `Option<L>`). -/
structure RBTree (α : Type u) where
  root : RBNode α
deriving DecidableEq

/-- Embeds `RBTree::new`. -/
def RBTree.new : RBTree α := ⟨.nil⟩

/-- Embeds `RBTree::is_empty`. -/
def RBTree.is_empty (t : RBTree α) : Bool :=
  match t.root with
  | .nil => true
  | .node _ _ _ _ => false

/-- Embeds `RBTree::left` (src/shared/rb_tree.rs lines 44-49): the assertion
`assert!(!self.is_empty())` fails on the empty tree (embedded as `none`);
otherwise a tree handle on the root's left child link. -/
def RBTree.left (t : RBTree α) : Option (RBTree α) :=
  match t.root with
  | .nil => none
  | .node _ l _ _ => some ⟨l⟩

/-- Embeds `RBTree::right` (src/shared/rb_tree.rs lines 51-56). -/
def RBTree.right (t : RBTree α) : Option (RBTree α) :=
  match t.root with
  | .nil => none
  | .node _ _ _ r => some ⟨r⟩

/-- Embeds `RBTree::inserted` (src/shared/rb_tree.rs lines 87-95). -/
def RBTree.inserted (lt : α → α → Bool) (t : RBTree α) (x : α) : RBTree α :=
  ⟨node_inserted lt t.root x⟩

/-- Colour of the root of a chain (`None` counts as Black). -/
def rootColour : RBNode α → Colour
  | .nil => .black
  | .node c _ _ _ => c

/-- Invariant 1: no red node has a red child. -/
def noRedRed : RBNode α → Bool
  | .nil => true
  | .node c l _ r =>
    noRedRed l && noRedRed r &&
      !(c == .red && (rootColour l == .red || rootColour r == .red))

/-- Invariant 2 checker: `some n` when every root-to-empty-leaf path
passes through exactly `n` black nodes, `none` when the black heights
disagree. -/
def blackHeightCheck : RBNode α → Option Nat
  | .nil => some 0
  | .node c l _ r =>
    match blackHeightCheck l, blackHeightCheck r with
    | some m, some n =>
      if m = n then some (if c == .black then m + 1 else m) else none
    | _, _ => none

/-- Invariant 3: the root, if present, is Black. -/
def rootBlack : RBNode α → Bool
  | .nil => true
  | .node c _ _ _ => c == .black

/-- The red-black balance invariant, indexed by root colour and black
height: no red node has a red child and all root-to-nil paths have the
same number of black nodes. -/
inductive BalancedRB : RBNode α → Colour → Nat → Prop where
  | nil : BalancedRB .nil .black 0
  | red {l r : RBNode α} {x : α} {n : Nat} :
      BalancedRB l .black n → BalancedRB r .black n →
      BalancedRB (.node .red l x r) .red n
  | black {l r : RBNode α} {x : α} {c₁ c₂ : Colour} {n : Nat} :
      BalancedRB l c₁ n → BalancedRB r c₂ n →
      BalancedRB (.node .black l x r) .black (n + 1)

/-- Weakening of `BalancedRB` for the intermediate state of insertion: the
tree is balanced, or (when `p` holds) its root is red with balanced
children of equal black height, allowing a red-red violation at the root
only. -/
inductive RedRed (p : Prop) : RBNode α → Nat → Prop where
  | balanced {t : RBNode α} {c : Colour} {n : Nat} :
      BalancedRB t c n → RedRed p t n
  | redred {a b : RBNode α} {x : α} {c₁ c₂ : Colour} {n : Nat} :
      p → BalancedRB a c₁ n → BalancedRB b c₂ n →
      RedRed p (.node .red a x b) n

/-! ## Ordered map (src/unsync/rb_map.rs, src/common/key_value.rs) -/

/-- Embeds `KeyValue(pub K, pub V)` from src/common/key_value.rs: ordered and
compared only by key. -/
structure KeyValue (K : Type u) (V : Type v) where
  k : K
  v : V
deriving DecidableEq

/-- The `PartialOrd` comparison of `KeyValue` (src/common/key_value.rs
lines 23-30): compare keys only. -/
def kvlt {K : Type u} {V : Type v} [LinearOrder K] (a b : KeyValue K V) : Bool :=
  decide (a.k < b.k)

/-- Modelled from the spec: the node-level ordered search behind
`RBTree::get` (src/shared/rb_tree.rs lines 66-72); the `RBNode::get`
implementation is declared in src/shared/rb_node.rs but its body is not
under src.  Spec section 4.3: descend left if the query is less than the
node's element, right if greater, return the element at equality. -/
def node_get (qlt : β → α → Bool) (qgt : β → α → Bool) : RBNode α → β → Option α
  | .nil, _ => none
  | .node _ l e r, q =>
    if qlt q e then node_get qlt qgt l q
    else if qgt q e then node_get qlt qgt r q
    else some e

/-- Modelled from the spec: the duplicate-replacing insert used by
`RBTree::inserted_or_replaced` (src/unsync/rb_tree.rs is not under src;
only its caller src/unsync/rb_map.rs lines 31-33 is).  Spec section 4.4
policy point: identical to `sorted_insert` except that at an
order-equal node it substitutes the new element while keeping the node's
colour and children. -/
def sorted_insert_or_replace (lt : α → α → Bool) : RBNode α → α → RBNode α
  | .nil, x => leafN x
  | .node c l e r, x =>
    if lt x e then balance_node c e (sorted_insert_or_replace lt l x) r
    else if lt e x then balance_node c e l (sorted_insert_or_replace lt r x)
    else .node c l x r

/-- Modelled from the spec: tree-level `inserted_or_replaced`; like
`node_inserted` it paints the root Black after the recursive insert
(spec section 4.4 step 3). -/
def node_inserted_or_replaced (lt : α → α → Bool) (t : RBNode α) (x : α) : RBNode α :=
  paint_link (sorted_insert_or_replace lt t x) .black

/-- The `RBMap` handle (src/unsync/rb_map.rs line 4): a red-black tree of
key-value pairs. -/
structure RBMap (K : Type u) (V : Type v) where
  tree : RBNode (KeyValue K V)
deriving DecidableEq

/-- Embeds `RBMap::new`. -/
def RBMap.new {K : Type u} {V : Type v} : RBMap K V := ⟨.nil⟩

/-- Embeds `RBMap::inserted` (src/unsync/rb_map.rs lines 27-29): tree insert of
the pair, ordered by key. -/
def RBMap.inserted {K : Type u} {V : Type v} [LinearOrder K]
    (m : RBMap K V) (k : K) (v : V) : RBMap K V :=
  ⟨node_inserted kvlt m.tree ⟨k, v⟩⟩

/-- Embeds `RBMap::inserted_or_replaced` (src/unsync/rb_map.rs lines 31-33). -/
def RBMap.inserted_or_replaced {K : Type u} {V : Type v} [LinearOrder K]
    (m : RBMap K V) (k : K) (v : V) : RBMap K V :=
  ⟨node_inserted_or_replaced kvlt m.tree ⟨k, v⟩⟩

/-- Key search in the pair tree: the instantiation of the ordered search
at a key query, as produced by the `PartialOrd<K> for KeyValue<K, V>`
impl of src/common/key_value.rs lines 41-48. -/
def mget {K : Type u} {V : Type v} [LinearOrder K]
    (t : RBNode (KeyValue K V)) (q : K) : Option (KeyValue K V) :=
  node_get (fun q e => decide (q < e.k)) (fun q e => decide (e.k < q)) t q

/-- Embeds `RBMap::get` (src/unsync/rb_map.rs lines 35-40): tree search by key,
then project the value. -/
def RBMap.get {K : Type u} {V : Type v} [LinearOrder K]
    (m : RBMap K V) (k : K) : Option V :=
  (mget m.tree k).map (·.v)

/-- All elements of a chain satisfy `p`. -/
def AllT (p : α → Prop) : RBNode α → Prop
  | .nil => True
  | .node _ l x r => p x ∧ AllT p l ∧ AllT p r

/-- The binary-search ordering invariant of the pair tree: keys strictly
smaller on the left, strictly greater on the right, at every node. -/
def OrderedK {K : Type u} {V : Type v} [LinearOrder K] :
    RBNode (KeyValue K V) → Prop
  | .nil => True
  | .node _ l e r =>
    AllT (fun y => y.k < e.k) l ∧ AllT (fun y => e.k < y.k) r ∧
      OrderedK l ∧ OrderedK r

/-- In-order element sequence of a chain. -/
def toL : RBNode α → List α
  | .nil => []
  | .node _ l x r => toL l ++ x :: toL r

/-! ### List lemmas -/

theorem fmapGo_toList (f : α → β) (xs : List α) (acc : LList β) :
    (fmapGo f xs acc).toList = (xs.map f).reverse ++ acc.toList := by
  induction xs generalizing acc with
  | nil => simp [fmapGo]
  | cons x xs ih =>
    simp [fmapGo, LList.pushed_front, ih, LList.toList]

theorem fmap_toList (f : α → β) (l : LList α) :
    (fmap f l).toList = (l.toList.map f).reverse := by
  simp [fmap, fmapGo_toList, LList.toList]

theorem pushAllGo_toList (xs : List α) (acc : LList α) :
    (pushAllGo xs acc).toList = xs.reverse ++ acc.toList := by
  induction xs generalizing acc with
  | nil => simp [pushAllGo]
  | cons x xs ih => simp [pushAllGo, LList.pushed_front, ih, LList.toList]

theorem filter_toList (p : α → Bool) (l : LList α) :
    (filter p l).toList = l.toList.filter p := by
  induction l with
  | nil => rfl
  | cons h t ih =>
    simp only [filter, LList.toList, List.filter_cons]
    cases hp : p h <;> simp [LList.toList, ih, hp]

theorem foldl_shift (a : ℤ) (l : LList ℤ) :
    foldl (· + ·) a l = a + foldl (· + ·) 0 l := by
  induction l generalizing a with
  | nil => simp [foldl]
  | cons h t ih =>
    simp only [foldl]
    rw [ih (a + h), ih (0 + h)]
    ring

theorem zipLongest_all_eq [BEq α] [LawfulBEq α] (xs ys : List α) :
    ((zipLongest xs ys).all fun x =>
      match x with
      | .both u w => u == w
      | _ => false) = true ↔ xs = ys := by
  induction xs generalizing ys with
  | nil =>
    cases ys with
    | nil => simp [zipLongest]
    | cons b bs => simp [zipLongest]
  | cons a as_ ih =>
    cases ys with
    | nil => simp [zipLongest]
    | cons b bs => simp [zipLongest, ih]

/-! ### List claim theorems -/

/-- C2 counterexample: on `L = cons(4, cons(3, cons(2, cons(1, empty))))`
the code's `fmap(double, L)` yields the list `[2, 4, 6, 8]`, not the
claimed `[8, 6, 4, 2]`. -/
theorem fmap_c2_counterexample :
    (fmap (fun x => 2 * x)
      (.cons 4 (.cons 3 (.cons 2 (.cons 1 .nil))) : LList ℕ)).toList = [2, 4, 6, 8] ∧
    (fmap (fun x => 2 * x)
      (.cons 4 (.cons 3 (.cons 2 (.cons 1 .nil))) : LList ℕ)).toList ≠ [8, 6, 4, 2] := by
  constructor
  · rfl
  · decide

/-- C2 (amended): `fmap(f, L)` returns the list of `f` applied
element-wise in the REVERSED order of `L` (the loop pushes each mapped
element onto the front of the accumulator while traversing front-to-back);
in particular `fmap(double, cons(4, cons(3, cons(2, cons(1, empty)))))`
yields `[2, 4, 6, 8]`. -/
theorem fmap_elementwise_reversed (f : α → β) (l : LList α) :
    (fmap f l).toList = (l.toList.map f).reverse :=
  fmap_toList f l

/-- C4 counterexample: for `x = 0` and `k = |x| cons(x, cons(x+1, empty))`,
`mbind(mreturn(x), k)` is `[1, 0]` while `k(x)` is `[0, 1]`, so the left
identity law fails. -/
theorem mbind_c4_counterexample :
    (mbind (mreturn 0) (fun x : ℕ => (.cons x (.cons (x + 1) .nil) : LList ℕ))).toList = [1, 0] ∧
    (mbind (mreturn 0) (fun x : ℕ => (.cons x (.cons (x + 1) .nil) : LList ℕ))).toList ≠
      ((fun x : ℕ => (.cons x (.cons (x + 1) .nil) : LList ℕ)) 0).toList := by
  constructor
  · rfl
  · decide

/-- C4 (amended): `mbind(mreturn(x), k)` equals the REVERSE of `k(x)` as a
list (the flattening loop of `concat_all` pushes each element of `k(x)`
onto the front of the result), not `k(x)` itself. -/
theorem mbind_mreturn_reversed (x : α) (k : α → LList β) :
    (mbind (mreturn x) k).toList = (k x).toList.reverse := by
  simp [mbind, mreturn, fmap, fmapGo, concat_all, concatAllGo, LList.toList,
    LList.pushed_front, pushAllGo_toList]

/-- C5: `cons(x, L).popped_front()` is the very list `L` again: `cons`
stores the tail handle unchanged and `popped_front` returns it, so the
original `L` is untouched and the tail chain is shared, not copied. -/
theorem popped_front_cons (x : α) (l : LList α) :
    popped_front (LList.cons x l) = some l :=
  rfl

/-- C6: `popped_front` on an empty list and `left`/`right` on an empty
tree abort (`none` embeds the panic / failed assertion), never returning a
sentinel; on every non-empty list/tree they succeed. -/
theorem precondition_violations_abort :
    (popped_front (LList.nil : LList α) = none) ∧
    (RBTree.left (RBTree.new : RBTree α) = none) ∧
    (RBTree.right (RBTree.new : RBTree α) = none) ∧
    (∀ l : LList α, l.is_empty = false → (popped_front l).isSome = true) ∧
    (∀ t : RBTree α, t.is_empty = false →
      (t.left).isSome = true ∧ (t.right).isSome = true) := by
  refine ⟨rfl, rfl, rfl, ?_, ?_⟩
  · intro l h
    cases l with
    | nil => simp [LList.is_empty] at h
    | cons x t => rfl
  · intro t h
    obtain ⟨root⟩ := t
    cases root with
    | nil => simp [RBTree.is_empty] at h
    | node c l x r => exact ⟨rfl, rfl⟩

/-- C6 witness: the non-emptiness hypotheses discharged on concrete
one-element structures. -/
theorem precondition_violations_abort_witness :
    (popped_front (LList.cons 1 LList.nil)).isSome = true ∧
    ((RBTree.mk (leafN 1) : RBTree ℕ).left).isSome = true ∧
    ((RBTree.mk (leafN 1) : RBTree ℕ).right).isSome = true :=
  ⟨(precondition_violations_abort (α := ℕ)).2.2.2.1 (LList.cons 1 LList.nil) rfl,
   ((precondition_violations_abort (α := ℕ)).2.2.2.2 (RBTree.mk (leafN 1)) rfl).1,
   ((precondition_violations_abort (α := ℕ)).2.2.2.2 (RBTree.mk (leafN 1)) rfl).2⟩

/-- C7: `filter(p, L)` keeps exactly the elements satisfying `p`, in their
original order; in particular
`filter(is_even, cons(4, cons(3, cons(2, cons(1, empty)))))` is `[4, 2]`. -/
theorem filter_keeps_satisfying_in_order (p : α → Bool) (l : LList α) :
    (filter p l).toList = l.toList.filter p :=
  filter_toList p l

/-- C8: the `PartialEq` comparison (via `zip_longest`) returns `true`
exactly when the two lists have the same length and elementwise-equal
items in the same order, i.e. when their element sequences coincide; in
particular lists of unequal length are never equal. -/
theorem list_equality_iff (a b : LList α) [BEq α] [LawfulBEq α] :
    listEq a b = true ↔ a.toList = b.toList := by
  unfold listEq
  exact zipLongest_all_eq a.toList b.toList

/-- C8 witness: the comparison evaluated on concrete lists through the
theorem. -/
theorem list_equality_iff_witness :
    listEq (LList.cons 1 (LList.cons 2 LList.nil))
      (LList.cons 1 (LList.cons 2 LList.nil)) = true :=
  (list_equality_iff (α := ℕ) _ _).mpr rfl

/-- C9: for every list of integers, the left fold and the right fold of
addition over `0` agree. -/
theorem fold_agreement_add (l : LList ℤ) :
    foldl (· + ·) 0 l = foldr (· + ·) 0 l := by
  induction l with
  | nil => rfl
  | cons h t ih =>
    simp only [foldl, foldr]
    rw [foldl_shift, ih]
    ring

/-! ### Red-black balance lemmas -/

theorem balance_node_red (x : α) (l r : RBNode α) :
    balance_node .red x l r = .node .red l x r :=
  rfl

theorem rootColour_of_black {t : RBNode α} {n : Nat}
    (h : BalancedRB t .black n) : rootColour t = .black := by
  cases h <;> rfl

/-- The four-pattern rebalancing repairs a red-red violation at the root
of the left child of a black node. -/
theorem redred_balance_left {p : Prop} {l r : RBNode α} {e : α} {c : Colour}
    {n : Nat} (hl : RedRed p l n) (hr : BalancedRB r c n) :
    ∃ c', BalancedRB (balance_node .black e l r) c' (n + 1) := by
  unfold balance_node
  split
  · have .redred _ (.red ha hb) hc := hl
    exact ⟨_, .red (.black ha hb) (.black hc hr)⟩
  · have .redred _ ha (.red hb hc) := hl
    exact ⟨_, .red (.black ha hb) (.black hc hr)⟩
  · rename_i hcl _
    cases hr with
    | red hb _ => cases hb
  · rename_i hcl _ _
    cases hr with
    | red _ hb => cases hb
  · rename_i H1 H2 H3 H4
    match hl with
    | .balanced hl' => exact ⟨_, .black hl' hr⟩
    | @RedRed.redred _ _ _ _ _ .black .black _ _ ha hb =>
      exact ⟨_, .black (.red ha hb) hr⟩
    | @RedRed.redred _ _ _ _ _ .red _ _ _ (.red ..) _ =>
      exact absurd rfl (H1 _ _ _ _ _ rfl)
    | @RedRed.redred _ _ _ _ _ .black .red _ _ _ (.red ..) =>
      exact absurd rfl (H2 _ _ _ _ _ rfl)

/-- Symmetric repair for a red-red violation at the root of the right
child. -/
theorem redred_balance_right {p : Prop} {l r : RBNode α} {e : α} {c : Colour}
    {n : Nat} (hl : BalancedRB l c n) (hr : RedRed p r n) :
    ∃ c', BalancedRB (balance_node .black e l r) c' (n + 1) := by
  unfold balance_node
  split
  · rename_i hcl _
    cases hl with
    | red hb _ => cases hb
  · rename_i hcl _
    cases hl with
    | red _ hb => cases hb
  · have .redred _ (.red ha hb) hc := hr
    exact ⟨_, .red (.black hl ha) (.black hb hc)⟩
  · have .redred _ ha (.red hb hc) := hr
    exact ⟨_, .red (.black hl ha) (.black hb hc)⟩
  · rename_i H1 H2 H3 H4
    match hr with
    | .balanced hr' => exact ⟨_, .black hl hr'⟩
    | @RedRed.redred _ _ _ _ _ .black .black _ _ ha hb =>
      exact ⟨_, .black hl (.red ha hb)⟩
    | @RedRed.redred _ _ _ _ _ .red _ _ _ (.red ..) _ =>
      exact absurd rfl (H3 _ _ _ _ _ rfl)
    | @RedRed.redred _ _ _ _ _ .black .red _ _ _ (.red ..) =>
      exact absurd rfl (H4 _ _ _ _ _ rfl)

/-- The balance invariant of `sorted_insert`: inserting into a balanced
tree yields a balanced tree of the same black height, or (when the root
was red) a tree whose only violation is a red root with a red child. -/
theorem balancedRB_ins (lt : α → α → Bool) (x : α) {t : RBNode α}
    {c : Colour} {n : Nat} (h : BalancedRB t c n) :
    RedRed (rootColour t = .red) (sorted_insert lt t x) n := by
  induction h with
  | nil => exact .balanced (.red .nil .nil)
  | @red a b e n hl hr ihl ihr =>
    simp only [sorted_insert]
    split
    · rw [balance_node_red]
      match sorted_insert lt a x, ihl with
      | _, .balanced .nil => exact .balanced (.red .nil hr)
      | _, .balanced (.red h1 h2) => exact .redred rfl (.red h1 h2) hr
      | _, .balanced (.black h1 h2) => exact .balanced (.red (.black h1 h2) hr)
      | _, .redred hp _ _ =>
        rw [rootColour_of_black hl] at hp
        exact absurd hp (by simp)
    split
    · rw [balance_node_red]
      match sorted_insert lt b x, ihr with
      | _, .balanced .nil => exact .balanced (.red hl .nil)
      | _, .balanced (.red h1 h2) => exact .redred rfl hl (.red h1 h2)
      | _, .balanced (.black h1 h2) => exact .balanced (.red hl (.black h1 h2))
      | _, .redred hp _ _ =>
        rw [rootColour_of_black hr] at hp
        exact absurd hp (by simp)
    · exact .balanced (.red hl hr)
  | @black a b c₁ c₂ e n hl hr ihl ihr =>
    simp only [sorted_insert]
    split
    · obtain ⟨c', h'⟩ := redred_balance_left ihl hr
      exact .balanced h'
    split
    · obtain ⟨c', h'⟩ := redred_balance_right hl ihr
      exact .balanced h'
    · exact .balanced (.black hl hr)

/-- Painting the root black turns the almost-balanced insertion result
into a balanced tree. -/
theorem paint_black_balanced {p : Prop} {t : RBNode α} {n : Nat}
    (h : RedRed p t n) : ∃ n', BalancedRB (paint_link t .black) .black n' := by
  match h with
  | .balanced .nil => exact ⟨0, .nil⟩
  | .balanced (.red h1 h2) => exact ⟨_, .black h1 h2⟩
  | .balanced (.black h1 h2) => exact ⟨_, .black h1 h2⟩
  | .redred _ h1 h2 => exact ⟨_, .black h1 h2⟩

theorem node_inserted_balanced (lt : α → α → Bool) (x : α) {t : RBNode α}
    {c : Colour} {n : Nat} (h : BalancedRB t c n) :
    ∃ n', BalancedRB (node_inserted lt t x) .black n' :=
  paint_black_balanced (balancedRB_ins lt x h)

theorem balanced_noRedRed {t : RBNode α} {c : Colour} {n : Nat}
    (h : BalancedRB t c n) : noRedRed t = true := by
  induction h with
  | nil => rfl
  | red hl hr ihl ihr =>
    simp [noRedRed, ihl, ihr, rootColour_of_black hl, rootColour_of_black hr]
  | black hl hr ihl ihr => simp [noRedRed, ihl, ihr]

theorem balanced_blackHeight {t : RBNode α} {c : Colour} {n : Nat}
    (h : BalancedRB t c n) : blackHeightCheck t = some n := by
  induction h with
  | nil => rfl
  | red hl hr ihl ihr => simp [blackHeightCheck, ihl, ihr]
  | black hl hr ihl ihr => simp [blackHeightCheck, ihl, ihr]

theorem balanced_rootBlack {t : RBNode α} {n : Nat}
    (h : BalancedRB t .black n) : rootBlack t = true := by
  cases h <;> rfl

/-- The `PartialOrd` less-than comparison at a linear order. -/
def ltb [LinearOrder α] (a b : α) : Bool := decide (a < b)

theorem foldl_inserted_balanced [LinearOrder α] (xs : List α) (t : RBTree α)
    (h : ∃ n, BalancedRB t.root .black n) :
    ∃ n, BalancedRB ((xs.foldl (fun t x => RBTree.inserted ltb t x) t).root) .black n := by
  induction xs generalizing t with
  | nil => exact h
  | cons x xs ih =>
    obtain ⟨n, hb⟩ := h
    exact ih _ (node_inserted_balanced ltb x hb)

/-- C1: every sequence of `inserted` calls starting from the empty tree
yields a tree with no red node having a red child, a uniform black count
on every root-to-empty-leaf path, and a Black root (the top-level insert
paints the root Black). -/
theorem rb_invariants_after_inserts [LinearOrder α] (xs : List α) :
    noRedRed ((xs.foldl (fun t x => RBTree.inserted ltb t x) RBTree.new).root) = true ∧
    (blackHeightCheck ((xs.foldl (fun t x => RBTree.inserted ltb t x) RBTree.new).root)).isSome = true ∧
    rootBlack ((xs.foldl (fun t x => RBTree.inserted ltb t x) RBTree.new).root) = true := by
  obtain ⟨n, hb⟩ := foldl_inserted_balanced xs RBTree.new ⟨0, .nil⟩
  refine ⟨balanced_noRedRed hb, ?_, balanced_rootBlack hb⟩
  rw [balanced_blackHeight hb]
  rfl

/-- C10: on every NON-empty tree, `left()`/`right()` return normally: a
tree whose root lacks the corresponding child yields the empty tree, and
in general the child subtree is returned; the aborting branch is only the
empty-tree one. -/
theorem left_right_missing_child (c : Colour) (x : α) (l r : RBNode α) :
    ((RBTree.mk (.node c .nil x r)).left = some RBTree.new) ∧
    ((RBTree.mk (.node c l x .nil)).right = some RBTree.new) ∧
    ((RBTree.mk (.node c l x r)).left = some ⟨l⟩) ∧
    ((RBTree.mk (.node c l x r)).right = some ⟨r⟩) :=
  ⟨rfl, rfl, rfl, rfl⟩

/-! ### Ordered-map lemmas -/

theorem AllT_imp {p q : α → Prop} (h : ∀ a, p a → q a) {t : RBNode α}
    (ht : AllT p t) : AllT q t := by
  induction t with
  | nil => trivial
  | node c l x r ihl ihr =>
    obtain ⟨hx, hl, hr⟩ := ht
    exact ⟨h x hx, ihl hl, ihr hr⟩

theorem AllT_toL {p : α → Prop} {t : RBNode α} (ht : AllT p t) :
    ∀ a ∈ toL t, p a := by
  induction t with
  | nil => intro a ha; simp [toL] at ha
  | node c l x r ihl ihr =>
    obtain ⟨hx, hl, hr⟩ := ht
    intro a ha
    simp only [toL, List.mem_append, List.mem_cons] at ha
    rcases ha with ha | ha | ha
    · exact ihl hl a ha
    · exact ha ▸ hx
    · exact ihr hr a ha

theorem toL_balance (c : Colour) (x : α) (l r : RBNode α) :
    toL (balance_node c x l r) = toL l ++ x :: toL r := by
  unfold balance_node
  split <;> simp [toL]

theorem AllT_balance {p : α → Prop} {c : Colour} {x : α} {l r : RBNode α} :
    AllT p (balance_node c x l r) ↔ p x ∧ AllT p l ∧ AllT p r := by
  unfold balance_node
  split <;> simp [AllT] <;> tauto

variable {K : Type u} {V : Type v} [LinearOrder K]

/-- The rebalancing patterns preserve the binary-search ordering
invariant. -/
theorem OrderedK_balance {c : Colour} {e : KeyValue K V}
    {l r : RBNode (KeyValue K V)}
    (hbl : AllT (fun y => y.k < e.k) l) (hbr : AllT (fun y => e.k < y.k) r)
    (hol : OrderedK l) (hor : OrderedK r) :
    OrderedK (balance_node c e l r) := by
  unfold balance_node
  split
  · obtain ⟨hy, -, hcc⟩ := hbl
    obtain ⟨⟨hxy, hay, hby⟩, hccy, ⟨haxa, hbxa, hoa, hob⟩, hocc⟩ := hol
    exact ⟨⟨hxy, hay, hby⟩, ⟨hy, hccy, AllT_imp (fun u hu => lt_trans hy hu) hbr⟩,
      ⟨haxa, hbxa, hoa, hob⟩, ⟨hcc, hbr, hocc, hor⟩⟩
  · obtain ⟨-, -, hye, -, hcce⟩ := hbl
    obtain ⟨haxa, ⟨hxa_y, hxa_b, -⟩, hoa, ⟨hb_y, hcc_y, hob, hocc⟩⟩ := hol
    exact ⟨⟨hxa_y, AllT_imp (fun u hu => lt_trans hu hxa_y) haxa, hb_y⟩,
      ⟨hye, hcc_y, AllT_imp (fun u hu => lt_trans hye hu) hbr⟩,
      ⟨haxa, hxa_b, hoa, hob⟩, ⟨hcce, hbr, hocc, hor⟩⟩
  · obtain ⟨-, ⟨hy, hb2, -⟩, -⟩ := hbr
    obtain ⟨⟨hyz, hbz, hccz⟩, hgt, ⟨hby, hccy, hob, hocc⟩, hod⟩ := hor
    exact ⟨⟨hy, AllT_imp (fun u hu => lt_trans hu hy) hbl, hby⟩,
      ⟨hyz, hccy, AllT_imp (fun u hu => lt_trans hyz hu) hgt⟩,
      ⟨hbl, hb2, hol, hob⟩, ⟨hccz, hgt, hocc, hod⟩⟩
  · obtain ⟨hy, hb2, -⟩ := hbr
    obtain ⟨hby, ⟨hyz, hycc, hyd⟩, hob, ⟨hccz, hzd, hocc, hod⟩⟩ := hor
    exact ⟨⟨hy, AllT_imp (fun u hu => lt_trans hu hy) hbl, hby⟩,
      ⟨hyz, hycc, hyd⟩, ⟨hbl, hb2, hol, hob⟩, ⟨hccz, hzd, hocc, hod⟩⟩
  · exact ⟨hbl, hbr, hol, hor⟩

theorem find_app_left {γ : Type u} {p : γ → Bool} {l1 l2 : List γ}
    (h : ∀ a ∈ l1, p a = false) : (l1 ++ l2).find? p = l2.find? p := by
  induction l1 with
  | nil => rfl
  | cons a l1 ih =>
    have ha := h a (List.mem_cons_self a l1)
    simp only [List.cons_append, List.find?, ha]
    exact ih fun b hb => h b (List.mem_cons_of_mem a hb)

theorem find_app_right {γ : Type u} {p : γ → Bool} {l1 l2 : List γ}
    (h : ∀ a ∈ l2, p a = false) : (l1 ++ l2).find? p = l1.find? p := by
  induction l1 with
  | nil =>
    simp only [List.nil_append, List.find?_nil]
    rw [List.find?_eq_none]
    intro a ha
    simp [h a ha]
  | cons a l1 ih =>
    cases hp : p a <;> simp [List.find?, hp, ih]

theorem mget_nil (q : K) : mget (.nil : RBNode (KeyValue K V)) q = none :=
  rfl

theorem mget_node {c : Colour} {l r : RBNode (KeyValue K V)}
    {e : KeyValue K V} {q : K} :
    mget (.node c l e r) q =
      if q < e.k then mget l q else if e.k < q then mget r q else some e := by
  simp [mget, node_get]

/-- On a key-ordered tree the comparison-driven search finds exactly the
element whose key matches the query, i.e. the first match in the in-order
sequence. -/
theorem mget_eq_find {t : RBNode (KeyValue K V)} (h : OrderedK t) (q : K) :
    mget t q = (toL t).find? (fun e => decide (e.k = q)) := by
  induction t with
  | nil => rfl
  | node c l e r ihl ihr =>
    obtain ⟨hbl, hbr, hol, hor⟩ := h
    rw [mget_node]
    rcases lt_trichotomy q e.k with hq | hq | hq
    · rw [if_pos hq, ihl hol]
      show _ = (toL l ++ e :: toL r).find? _
      rw [find_app_right]
      intro a ha
      simp only [List.mem_cons] at ha
      rcases ha with ha | ha
      · subst ha
        simp [ne_of_gt hq]
      · have := AllT_toL hbr a ha
        have : q < a.k := lt_trans hq this
        simp [ne_of_gt this]
    · rw [if_neg (by simp [hq]), if_neg (by simp [hq])]
      show _ = (toL l ++ e :: toL r).find? _
      rw [find_app_left]
      · simp [List.find?, hq]
      · intro a ha
        have := AllT_toL hbl a ha
        simp [ne_of_lt (hq ▸ this)]
    · rw [if_neg (by exact not_lt_of_gt hq), if_pos hq, ihr hor]
      show _ = (toL l ++ e :: toL r).find? _
      rw [find_app_left]
      · have : e.k ≠ q := ne_of_lt hq
        simp [List.find?, this]
      · intro a ha
        have ha' := AllT_toL hbl a ha
        have : a.k < q := lt_trans ha' hq
        simp [ne_of_lt this]

/-- Rebalancing never changes the result of the ordered search. -/
theorem mget_balance {c : Colour} {e : KeyValue K V}
    {l r : RBNode (KeyValue K V)}
    (hbl : AllT (fun y => y.k < e.k) l) (hbr : AllT (fun y => e.k < y.k) r)
    (hol : OrderedK l) (hor : OrderedK r) (q : K) :
    mget (balance_node c e l r) q = mget (.node c l e r) q := by
  have hn : OrderedK (.node c l e r : RBNode (KeyValue K V)) :=
    ⟨hbl, hbr, hol, hor⟩
  rw [mget_eq_find (OrderedK_balance hbl hbr hol hor),
    mget_eq_find hn, toL_balance]
  rfl

theorem mget_paint (t : RBNode (KeyValue K V)) (c : Colour) (q : K) :
    mget (paint_link t c) q = mget t q := by
  cases t <;> rfl

theorem AllT_paint {p : α → Prop} {t : RBNode α} {c : Colour} :
    AllT p (paint_link t c) ↔ AllT p t := by
  cases t <;> simp [paint_link, AllT]

theorem OrderedK_paint {t : RBNode (KeyValue K V)} {c : Colour} :
    OrderedK (paint_link t c) ↔ OrderedK t := by
  cases t <;> simp [paint_link, OrderedK]

theorem AllT_ins {p : α → Prop} (lt : α → α → Bool) {t : RBNode α} {x : α}
    (ht : AllT p t) (hx : p x) : AllT p (sorted_insert lt t x) := by
  induction t with
  | nil =>
    simp only [sorted_insert, sorted_insert_or_replace, leafN, AllT]
    exact ⟨hx, True.intro, True.intro⟩
  | node c l e r ihl ihr =>
    obtain ⟨he, hl, hr⟩ := ht
    simp only [sorted_insert]
    split
    · exact AllT_balance.mpr ⟨he, ihl hl, hr⟩
    split
    · exact AllT_balance.mpr ⟨he, hl, ihr hr⟩
    · exact ⟨he, hl, hr⟩

theorem AllT_rep {p : α → Prop} (lt : α → α → Bool) {t : RBNode α} {x : α}
    (ht : AllT p t) (hx : p x) : AllT p (sorted_insert_or_replace lt t x) := by
  induction t with
  | nil =>
    simp only [sorted_insert, sorted_insert_or_replace, leafN, AllT]
    exact ⟨hx, True.intro, True.intro⟩
  | node c l e r ihl ihr =>
    obtain ⟨he, hl, hr⟩ := ht
    simp only [sorted_insert_or_replace]
    split
    · exact AllT_balance.mpr ⟨he, ihl hl, hr⟩
    split
    · exact AllT_balance.mpr ⟨he, hl, ihr hr⟩
    · exact ⟨hx, hl, hr⟩

theorem OrderedK_ins {t : RBNode (KeyValue K V)} (h : OrderedK t)
    (x : KeyValue K V) : OrderedK (sorted_insert kvlt t x) := by
  induction t with
  | nil =>
    simp only [sorted_insert, sorted_insert_or_replace, leafN, OrderedK, AllT]
    exact ⟨True.intro, True.intro, True.intro, True.intro⟩
  | node c l e r ihl ihr =>
    obtain ⟨hbl, hbr, hol, hor⟩ := h
    simp only [sorted_insert]
    split
    · rename_i hlt
      have hx : x.k < e.k := by simpa [kvlt] using hlt
      exact OrderedK_balance (AllT_ins kvlt hbl hx) hbr (ihl hol) hor
    split
    · rename_i hgt
      have hx : e.k < x.k := by simpa [kvlt] using hgt
      exact OrderedK_balance hbl (AllT_ins kvlt hbr hx) hol (ihr hor)
    · exact ⟨hbl, hbr, hol, hor⟩

theorem OrderedK_rep {t : RBNode (KeyValue K V)} (h : OrderedK t)
    (x : KeyValue K V) : OrderedK (sorted_insert_or_replace kvlt t x) := by
  induction t with
  | nil =>
    simp only [sorted_insert, sorted_insert_or_replace, leafN, OrderedK, AllT]
    exact ⟨True.intro, True.intro, True.intro, True.intro⟩
  | node c l e r ihl ihr =>
    obtain ⟨hbl, hbr, hol, hor⟩ := h
    simp only [sorted_insert_or_replace]
    split
    · rename_i hlt
      have hx : x.k < e.k := by simpa [kvlt] using hlt
      exact OrderedK_balance (AllT_rep kvlt hbl hx) hbr (ihl hol) hor
    split
    · rename_i hgt
      have hx : e.k < x.k := by simpa [kvlt] using hgt
      exact OrderedK_balance hbl (AllT_rep kvlt hbr hx) hol (ihr hor)
    · rename_i h1 h2
      have hxe : ¬ (x.k < e.k) := by simpa [kvlt] using h1
      have hex : ¬ (e.k < x.k) := by simpa [kvlt] using h2
      have heq : x.k = e.k := le_antisymm (not_lt.mp hex) (not_lt.mp hxe)
      refine ⟨?_, ?_, hol, hor⟩
      · simp only [heq]
        exact hbl
      · simp only [heq]
        exact hbr

/-- Searching for the key of a freshly `sorted_insert`-ed pair finds the
pre-existing pair when the key was present (duplicates are kept), and the
new pair otherwise. -/
theorem mget_ins {t : RBNode (KeyValue K V)} (h : OrderedK t)
    (x : KeyValue K V) :
    mget (sorted_insert kvlt t x) x.k = some ((mget t x.k).getD x) := by
  induction t with
  | nil => simp [sorted_insert, leafN, mget_node, mget_nil, lt_irrefl]
  | node c l e r ihl ihr =>
    obtain ⟨hbl, hbr, hol, hor⟩ := h
    simp only [sorted_insert]
    split
    · rename_i hlt
      have hx : x.k < e.k := by simpa [kvlt] using hlt
      rw [mget_balance (AllT_ins kvlt hbl hx) hbr (OrderedK_ins hol x) hor]
      simp only [mget_node, if_pos hx]
      exact ihl hol
    split
    · rename_i hgt
      have hx : e.k < x.k := by simpa [kvlt] using hgt
      have h1 : ¬ (x.k < e.k) := not_lt_of_gt hx
      rw [mget_balance hbl (AllT_ins kvlt hbr hx) hol (OrderedK_ins hor x)]
      simp only [mget_node, if_neg h1, if_pos hx]
      exact ihr hor
    · rename_i h1 h2
      have hxe : ¬ (x.k < e.k) := by simpa [kvlt] using h1
      have hex : ¬ (e.k < x.k) := by simpa [kvlt] using h2
      simp only [mget_node, if_neg hxe, if_neg hex, Option.getD_some]

/-- Searching for the key of a freshly replace-inserted pair always finds
the new pair. -/
theorem mget_rep {t : RBNode (KeyValue K V)} (h : OrderedK t)
    (x : KeyValue K V) :
    mget (sorted_insert_or_replace kvlt t x) x.k = some x := by
  induction t with
  | nil => simp [sorted_insert_or_replace, leafN, mget_node, lt_irrefl]
  | node c l e r ihl ihr =>
    obtain ⟨hbl, hbr, hol, hor⟩ := h
    simp only [sorted_insert_or_replace]
    split
    · rename_i hlt
      have hx : x.k < e.k := by simpa [kvlt] using hlt
      rw [mget_balance (AllT_rep kvlt hbl hx) hbr (OrderedK_rep hol x) hor]
      simp only [mget_node, if_pos hx]
      exact ihl hol
    split
    · rename_i hgt
      have hx : e.k < x.k := by simpa [kvlt] using hgt
      have h1 : ¬ (x.k < e.k) := not_lt_of_gt hx
      rw [mget_balance hbl (AllT_rep kvlt hbr hx) hol (OrderedK_rep hor x)]
      simp only [mget_node, if_neg h1, if_pos hx]
      exact ihr hor
    · simp [mget_node, lt_irrefl]

/-! ### Map claim theorems -/

/-- C3 counterexample: on a map that already binds the key (here 5 ↦ 0),
`inserted(5, v1)` is itself a no-op, so
`M.inserted(5, 1).inserted(5, 2).get(5)` is `Some(0)`, not `Some(1)`:
the claimed equation fails for maps already containing `k`. -/
theorem map_c3_counterexample :
    ((((RBMap.new : RBMap ℕ ℕ).inserted 5 0).inserted 5 1).inserted 5 2).get 5
      = some 0 ∧
    ¬ (((((RBMap.new : RBMap ℕ ℕ).inserted 5 0).inserted 5 1).inserted 5 2).get 5
      = some 1) := by
  constructor
  · rfl
  · decide

/-- C3 (amended): on every key-ordered map, duplicate policy holds in the
form: if `k` is NOT already bound then
`M.inserted(k, v1).inserted(k, v2).get(k) = Some(v1)` (first-writer-wins),
and unconditionally
`M.inserted_or_replaced(k, v1).inserted_or_replaced(k, v2).get(k) = Some(v2)`. -/
theorem map_duplicate_policy (m : RBMap K V) (k : K) (v1 v2 : V)
    (hwf : OrderedK m.tree) :
    (m.get k = none →
      ((m.inserted k v1).inserted k v2).get k = some v1) ∧
    ((m.inserted_or_replaced k v1).inserted_or_replaced k v2).get k = some v2 := by
  constructor
  · intro hnone
    have hget : mget m.tree k = none := by
      simp only [RBMap.get] at hnone
      exact Option.map_eq_none'.mp hnone
    have h1wf : OrderedK (paint_link (sorted_insert kvlt m.tree ⟨k, v1⟩) .black) :=
      OrderedK_paint.mpr (OrderedK_ins hwf ⟨k, v1⟩)
    have h1get : mget (paint_link (sorted_insert kvlt m.tree ⟨k, v1⟩) .black) k
        = some ⟨k, v1⟩ := by
      rw [mget_paint]
      have h := mget_ins hwf ⟨k, v1⟩
      simpa [hget] using h
    have h2 := mget_ins h1wf ⟨k, v2⟩
    simp only [show (⟨k, v2⟩ : KeyValue K V).k = k from rfl, h1get,
      Option.getD_some] at h2
    simp only [RBMap.get, RBMap.inserted, node_inserted, mget_paint, h2,
      Option.map_some']
  · have h1wf :
        OrderedK (paint_link (sorted_insert_or_replace kvlt m.tree ⟨k, v1⟩) .black) :=
      OrderedK_paint.mpr (OrderedK_rep hwf ⟨k, v1⟩)
    have h2 := mget_rep h1wf ⟨k, v2⟩
    simp only [show (⟨k, v2⟩ : KeyValue K V).k = k from rfl] at h2
    simp only [RBMap.get, RBMap.inserted_or_replaced, node_inserted_or_replaced,
      mget_paint, h2, Option.map_some']

/-- C3 witness: both amended equations evaluated on a concrete fresh map
through the theorem. -/
theorem map_duplicate_policy_witness :
    ((((RBMap.new : RBMap ℕ ℕ).inserted 1 10).inserted 1 20).get 1 = some 10) ∧
    ((((RBMap.new : RBMap ℕ ℕ).inserted_or_replaced 1 10).inserted_or_replaced 1 20).get 1
      = some 20) :=
  ⟨(map_duplicate_policy RBMap.new 1 10 20 True.intro).1 rfl,
   (map_duplicate_policy RBMap.new 1 10 20 True.intro).2⟩
